import Mathlib

set_option linter.unusedVariables false

/-! Shallow embedding of the yake task runner core (src/yake.rs).

Rust HashMap values are modelled as association lists (the nested child
map of a target as the isomorphic `TargetMap` list so that the
flattening recursion is structural); lookups take the first matching
key, and map extension prepends the newer layer so that later
extensions override earlier bindings, matching HashMap::extend on all
observable lookups (source maps carry no duplicate keys). -/

/-- Environment maps (Rust `HashMap<String, String>`). -/
abbrev Env := List (String × String)

/-- First-match lookup in an environment list. -/
def envLookup (e : Env) (k : String) : Option String :=
  (e.find? (fun p => p.1 == k)).map (fun p => p.2)

/-- `HashMap::extend`: every binding of `b` is inserted into `a`,
overriding bindings of `a` at the same key.  Prepending `b` gives the
same `envLookup` behaviour. -/
def Env.extend (a b : Env) : Env := b ++ a

/-- `YakeTargetType` (yake.rs lines 73-79). -/
inductive YakeTargetType where
  | group
  | callable
deriving DecidableEq, BEq

/-- `YakeTargetMeta` (yake.rs lines 45-54). -/
structure YakeTargetMeta where
  doc : String
  target_type : YakeTargetType
  depends : Option (List String)
deriving DecidableEq

mutual

/-- `YakeTarget` (yake.rs lines 57-68); recursive through the optional
child map. -/
inductive YakeTarget where
  | mk (tmeta : YakeTargetMeta) (targets : Option TargetMap)
      (env : Option Env) (exec : Option (List String)) : YakeTarget

/-- The child map `HashMap<String, YakeTarget>` of a target, as an
association list. -/
inductive TargetMap where
  | nil : TargetMap
  | cons (name : String) (t : YakeTarget) (rest : TargetMap) : TargetMap

end

/-- Projection for the `meta` field of a target. -/
def YakeTarget.tmeta : YakeTarget → YakeTargetMeta
  | .mk m _ _ _ => m

/-- Projection for the `targets` field of a target. -/
def YakeTarget.targets : YakeTarget → Option TargetMap
  | .mk _ t _ _ => t

/-- Projection for the `env` field of a target. -/
def YakeTarget.env : YakeTarget → Option Env
  | .mk _ _ e _ => e

/-- Projection for the `exec` field of a target. -/
def YakeTarget.exec : YakeTarget → Option (List String)
  | .mk _ _ _ e => e

/-- A `TargetMap` viewed as a plain association list. -/
def TargetMap.toList : TargetMap → List (String × YakeTarget)
  | .nil => []
  | .cons nm t rest => (nm, t) :: rest.toList

/-- The child map of a target as an association list, empty when the
`targets` field is absent. -/
def YakeTarget.children (t : YakeTarget) : List (String × YakeTarget) :=
  (t.targets.getD TargetMap.nil).toList

/-- `YakeMeta` (yake.rs lines 34-42). -/
structure YakeMeta where
  doc : String
  version : String
  include_recursively : Option Bool
deriving DecidableEq

/-- `Yake` (yake.rs lines 12-28).  The two `#[serde(skip)]` cache fields
(`all_targets`, `dependencies`) are omitted: every method of the source
recomputes them and never reads the stored fields. -/
structure Yake where
  ymeta : YakeMeta
  env : Option Env
  targets : List (String × YakeTarget)

/-- Qualified-name construction used in `get_sub_targets`
(yake.rs lines 295-298): `format!("{}.{}", x, target_name)` under a
prefix, the bare name otherwise. -/
def qualifyName : Option String → String → String
  | some x, nm => x ++ "." ++ nm
  | none, nm => nm

mutual

/-- `YakeTarget::get_sub_targets` (yake.rs lines 289-312): nothing when
the `targets` field is absent, otherwise the flattening of the
children. -/
def YakeTarget.get_sub_targets : YakeTarget → Option String → List (String × YakeTarget)
  | YakeTarget.mk _ none _ _, _ => []
  | YakeTarget.mk _ (some children) _ _, pfx => flattenForest children pfx

/-- The loop body of `get_sub_targets` (yake.rs lines 293-307) over the
children: a Callable child is emitted under its qualified name and not
descended into; a Group child is not emitted and is recursed into with
the extended prefix (kept `None` when there is no prefix). -/
def flattenForest : TargetMap → Option String → List (String × YakeTarget)
  | TargetMap.nil, _ => []
  | TargetMap.cons nm t rest, pfx =>
    (if t.tmeta.target_type = YakeTargetType.callable then
      [(qualifyName pfx nm, t)]
    else t.get_sub_targets (pfx.map (fun s => s ++ "." ++ nm))) ++ flattenForest rest pfx

end

/-- `Yake::get_all_targets` (yake.rs lines 122-134): every top-level
target is inserted under its own name regardless of type; a top-level
target with a child map additionally contributes its flattened
sub-targets under itself as prefix. -/
def Yake.get_all_targets (y : Yake) : List (String × YakeTarget) :=
  y.targets.foldr
    (fun p acc =>
      (p.1, p.2) ::
        ((if p.2.targets.isSome then p.2.get_sub_targets (some p.1) else []) ++ acc))
    []

/-- First-match lookup in a flattened target map. -/
def lookupT (l : List (String × YakeTarget)) (k : String) : Option YakeTarget :=
  (l.find? (fun p => p.1 == k)).map (fun p => p.2)

/-- `Yake::get_target_names` (yake.rs lines 112-118): names of the
Callable entries of the flattened map. -/
def Yake.get_target_names (y : Yake) : List String :=
  (y.get_all_targets.filter
    (fun p => p.2.tmeta.target_type == YakeTargetType.callable)).map (fun p => p.1)

/-- `Yake::get_target_by_name` (yake.rs lines 146-150). -/
def Yake.get_target_by_name (y : Yake) (n : String) : Option YakeTarget :=
  lookupT y.get_all_targets n

/-- `Yake::has_target_name` (yake.rs lines 137-143). -/
def Yake.has_target_name (y : Yake) (n : String) : Except (List String) Unit :=
  if (y.get_target_by_name n).isSome then Except.ok () else Except.error y.get_target_names

/-- Whether an `Except` value is the `ok` branch. -/
def exOk {ε α : Type} : Except ε α → Bool
  | .ok _ => true
  | .error _ => false

/-- Model of Rust `str::split('.')` on the character list of a string:
segments between dots, keeping empty segments, one segment for the empty
string. -/
def splitDotsAux : List Char → List (List Char)
  | [] => [[]]
  | c :: rest =>
    let acc := splitDotsAux rest
    if c = '.' then [] :: acc
    else (c :: acc.headD []) :: acc.tail

/-- `target_name.split(".")` (yake.rs line 202). -/
def splitDots (s : String) : List String :=
  (splitDotsAux s.data).map (fun cs => String.mk cs)

/-- Rust `[..].join(".")`. -/
def joinDots : List String → String
  | [] => ""
  | [s] => s
  | s :: rest => s ++ "." ++ joinDots rest

/-- The ordered list of dotted prefixes computed by the loop of
`get_target_env_vars` (yake.rs lines 206-207):
`parent_targets[0..i+1].join(".")` for each index `i`, so the last
element is the rejoined full name. -/
def parentPaths (n : String) : List String :=
  let segs := splitDots n
  (List.range segs.length).map (fun i => joinDots (segs.take (i + 1)))

/-- Failure modes of `get_target_env_vars`: the `Err` return for an
unknown name (line 198), the `.expect` panic when a prefix does not
resolve (line 208), and the `panic!` on reserved variables (line 222). -/
inductive EnvError where
  | unknownTarget (name : String)
  | unknownParent (path : String)
  | forbiddenVars (keys : List String)
deriving DecidableEq

/-- The env-accumulation loop of `get_target_env_vars`
(yake.rs lines 206-210): each prefix is looked up via
`get_target_by_name` (a failure is the `.expect` panic) and its `env`
extends the accumulator. -/
def Yake.accumEnv (y : Yake) : List String → Env → Except EnvError Env
  | [], acc => Except.ok acc
  | p :: rest, acc =>
    match y.get_target_by_name p with
    | none => Except.error (EnvError.unknownParent p)
    | some t => y.accumEnv rest (Env.extend acc (t.env.getD []))

/-- The accumulated (pre-filter) environment of
`get_target_env_vars` (yake.rs lines 201-213): root env, extended by
each prefix's env in order, extended by the target's own env. -/
def Yake.accumulatedEnv (y : Yake) (n : String) : Except EnvError Env :=
  match y.accumEnv (parentPaths n) (y.env.getD []) with
  | Except.error e => Except.error e
  | Except.ok envs =>
    match y.get_target_by_name n with
    | none => Except.error (EnvError.unknownParent n)
    | some t => Except.ok (Env.extend envs (t.env.getD []))

/-- The reserved-variable denylist (yake.rs lines 217-219). -/
def reservedKey (k : String) : Bool :=
  k == "TERM" || k == "TZ" || k == "LANG" || k == "PATH" || k == "HOME"

/-- `Yake::get_target_env_vars` (yake.rs lines 196-228). -/
def Yake.get_target_env_vars (y : Yake) (n : String) : Except EnvError Env :=
  match y.has_target_name n with
  | Except.error _ => Except.error (EnvError.unknownTarget n)
  | Except.ok _ =>
    match y.accumulatedEnv n with
    | Except.error e => Except.error e
    | Except.ok envs =>
      let part := envs.partition (fun q => reservedKey q.1)
      if part.1.length > 0 then Except.error (EnvError.forbiddenVars (part.1.map (fun q => q.1)))
      else Except.ok part.2

/-- The `.expect` panic of `get_all_dependencies` (yake.rs lines
164-170), naming the missing dependency and the owning target. -/
inductive DepError where
  | unknownDependency (dep owner : String)
deriving DecidableEq

/-- The inner loop of `get_all_dependencies` (yake.rs lines 162-173):
resolve each declared dependency name in order via
`get_target_by_name`, a miss being the panic. -/
def Yake.resolveDeps (y : Yake) (owner : String) :
    List String → Except DepError (List YakeTarget)
  | [] => Except.ok []
  | d :: rest =>
    match y.get_target_by_name d with
    | none => Except.error (DepError.unknownDependency d owner)
    | some t =>
      match y.resolveDeps owner rest with
      | Except.error e => Except.error e
      | Except.ok l => Except.ok (t :: l)

/-- The outer loop of `get_all_dependencies` (yake.rs lines 155-177)
over the flattened entries: non-Callable entries are skipped, Callable
entries get the resolved list of their declared dependencies. -/
def Yake.depsEntries (y : Yake) :
    List (String × YakeTarget) → Except DepError (List (String × List YakeTarget))
  | [] => Except.ok []
  | (nm, t) :: rest =>
    if t.tmeta.target_type = YakeTargetType.callable then
      match y.resolveDeps nm (t.tmeta.depends.getD []) with
      | Except.error e => Except.error e
      | Except.ok l =>
        match y.depsEntries rest with
        | Except.error e => Except.error e
        | Except.ok ds => Except.ok ((nm, l) :: ds)
    else y.depsEntries rest

/-- `Yake::get_all_dependencies` (yake.rs lines 155-177). -/
def Yake.get_all_dependencies (y : Yake) :
    Except DepError (List (String × List YakeTarget)) :=
  y.depsEntries y.get_all_targets

/-- First-match lookup in the dependency map. -/
def lookupDeps (ds : List (String × List YakeTarget)) (k : String) :
    Option (List YakeTarget) :=
  (ds.find? (fun p => p.1 == k)).map (fun p => p.2)

/-- Failure modes of `execute` (yake.rs lines 231-283): the `Err` return
for an unknown name, a panic propagated from `get_all_dependencies`, the
`.unwrap()` panic of `get_dependencies_by_name` when the name has no
entry in the dependency map, and a panic propagated from
`get_target_env_vars` while running a command. -/
inductive ExecError where
  | unknownTarget (name : String)
  | depResolution (e : DepError)
  | missingDepsEntry (name : String)
  | envPanic (e : EnvError)
deriving DecidableEq

/-- `Yake::get_dependencies_by_name` (yake.rs lines 180-185):
`get_all_dependencies().get(target_name).unwrap()`. -/
def Yake.get_dependencies_by_name (y : Yake) (n : String) :
    Except ExecError (List YakeTarget) :=
  match y.get_all_dependencies with
  | Except.error e => Except.error (ExecError.depResolution e)
  | Except.ok ds =>
    match lookupDeps ds n with
    | none => Except.error (ExecError.missingDepsEntry n)
    | some l => Except.ok l

/-- One shell invocation observed at the collaborator boundary: the
command line handed to `bash -c` and the environment passed along
(yake.rs lines 247-252). -/
structure ShellCall where
  command : String
  env : Env
deriving DecidableEq

/-- The command loop of the `run_target` closure (yake.rs lines
239-272): each command of the `exec` list is run with the environment
`get_target_env_vars(target_name).unwrap_or_default()` of the
originally requested name; an `Err` from env resolution becomes the
empty default, while a panic inside env resolution aborts. -/
def Yake.runCmds (y : Yake) (reqName : String) :
    List String → Except ExecError (List ShellCall)
  | [] => Except.ok []
  | c :: rest =>
    match y.get_target_env_vars reqName with
    | Except.ok e =>
      match y.runCmds reqName rest with
      | Except.error err => Except.error err
      | Except.ok tr => Except.ok (ShellCall.mk c e :: tr)
    | Except.error (EnvError.unknownTarget _) =>
      match y.runCmds reqName rest with
      | Except.error err => Except.error err
      | Except.ok tr => Except.ok (ShellCall.mk c [] :: tr)
    | Except.error e => Except.error (ExecError.envPanic e)

/-- The `run_target` closure (yake.rs lines 239-272): run the `exec`
commands if present, do nothing otherwise. -/
def Yake.runTarget (y : Yake) (reqName : String) (t : YakeTarget) :
    Except ExecError (List ShellCall) :=
  y.runCmds reqName (t.exec.getD [])

/-- The dependency loop of `execute` (yake.rs lines 274-277), in list
order. -/
def Yake.runTargets (y : Yake) (reqName : String) :
    List YakeTarget → Except ExecError (List ShellCall)
  | [] => Except.ok []
  | t :: rest =>
    match y.runTarget reqName t with
    | Except.error e => Except.error e
    | Except.ok tr1 =>
      match y.runTargets reqName rest with
      | Except.error e => Except.error e
      | Except.ok tr2 => Except.ok (tr1 ++ tr2)

/-- `Yake::execute` (yake.rs lines 231-283), observed as the ordered
list of shell invocations. -/
def Yake.execute (y : Yake) (n : String) : Except ExecError (List ShellCall) :=
  match y.has_target_name n with
  | Except.error _ => Except.error (ExecError.unknownTarget n)
  | Except.ok _ =>
    match y.get_target_by_name n with
    | none => Except.error (ExecError.unknownTarget n)
    | some target =>
      match y.get_dependencies_by_name n with
      | Except.error e => Except.error e
      | Except.ok deps =>
        match y.runTargets n deps with
        | Except.error e => Except.error e
        | Except.ok tr1 =>
          match y.runTarget n target with
          | Except.error e => Except.error e
          | Except.ok tr2 => Except.ok (tr1 ++ tr2)

/-- `HashMap::insert` on an association list: replace the first binding
of the key, else append. -/
def insertT : List (String × YakeTarget) → String → YakeTarget → List (String × YakeTarget)
  | [], k, v => [(k, v)]
  | p :: rest, k, v =>
    if p.1 = k then (k, v) :: rest else p :: insertT rest k v

/-- `Yake::add_sub_yake` (yake.rs lines 188-193): every entry of the
subordinate document's flattened map is inserted into the root
document's top-level target map, overwriting existing entries. -/
def Yake.add_sub_yake (y : Yake) (sub : Yake) : Yake :=
  { y with targets := sub.get_all_targets.foldl (fun acc p => insertT acc p.1 p.2) y.targets }

/-- Left-biased choice on optional values. -/
def oor {α : Type} (a b : Option α) : Option α :=
  match a with
  | some v => some v
  | none => b

/-- The environment contributed by a named layer: the env map of the
target the name resolves to, empty otherwise. -/
def envOfName (y : Yake) (p : String) : Env :=
  match y.get_target_by_name p with
  | some t => t.env.getD []
  | none => []

/-- The merge layers described by the specification, shallowest first:
the document root env, then the env of each dotted prefix of the name
(the last prefix being the target itself), then the target's own env
once more — the final repetition mirrors the source's closing
`envs.extend(target.env)` and is invisible to lookups. -/
def layerEnvs (y : Yake) (n : String) : List Env :=
  (y.env.getD []) :: ((parentPaths n).map (envOfName y) ++ [envOfName y n])

/-- Lookup across ordered layers where a deeper (later) layer wins. -/
def layersLookup (ls : List Env) (k : String) : Option String :=
  ls.foldl (fun a e => oor (envLookup e k) a) none

/-- Purely-Group-mediated paths through the target tree, written from
the specification's flattening property: `GroupChain t path c` holds
when following the segment names of `path` from `t` crosses only Group
intermediate nodes and ends at the Callable node `c`. -/
inductive GroupChain : YakeTarget → List String → YakeTarget → Prop where
  | last (t : YakeTarget) (n : String) (c : YakeTarget)
      (hm : (n, c) ∈ t.children)
      (hc : c.tmeta.target_type = YakeTargetType.callable) : GroupChain t [n] c
  | step (t : YakeTarget) (n : String) (g : YakeTarget) (rest : List String) (c : YakeTarget)
      (hm : (n, g) ∈ t.children)
      (hg : g.tmeta.target_type = YakeTargetType.group)
      (hrest : GroupChain g rest c) : GroupChain t (n :: rest) c

/-- Dot-joining of a path below a first segment, following the
`format!("{}.{}", prefix, name)` chaining of `get_sub_targets`. -/
def dotJoin : String → List String → String
  | a, [] => a
  | a, n :: rest => dotJoin (a ++ "." ++ n) rest

/-- Document metadata shared by the concrete example documents. -/
def exMeta : YakeMeta := { doc := "doc", version := "1.0.0", include_recursively := none }

/-- The `base` target of the test fixture (yake.rs lines 362-375). -/
def baseTar : YakeTarget :=
  YakeTarget.mk ⟨"Base", YakeTargetType.callable, none⟩ none none none

/-- The `test` target of the test fixture (yake.rs lines 325-334). -/
def testTar : YakeTarget :=
  YakeTarget.mk ⟨"Huhu", YakeTargetType.callable, some ["base"]⟩ none
    (some [("WEBAPP_PORT", "6543"), ("POSTGRES_PORT", "5432")]) none

/-- The `group.sub` target of the test fixture (yake.rs lines 340-349). -/
def subTar : YakeTarget :=
  YakeTarget.mk ⟨"Subtarget", YakeTargetType.callable, some ["base"]⟩ none
    (some [("BASE", "OVERWRITE"), ("DOCKER_PORT", "1234"), ("POSTGRES_PORT", "54322")]) none

/-- The `group` target of the test fixture (yake.rs lines 351-360). -/
def groupTar : YakeTarget :=
  YakeTarget.mk ⟨"Grouptarget", YakeTargetType.group, none⟩
    (some (TargetMap.cons "sub" subTar TargetMap.nil)) none none

/-- The document of the test fixture `get_yake` (yake.rs lines 395-412). -/
def yBase : Yake :=
  { ymeta := exMeta, env := some [("BASE", "BASEVAL")],
    targets := [("base", baseTar), ("test", testTar), ("group", groupTar)] }

/-- Callable leaf of the three-level Group nesting example. -/
def deepC : YakeTarget :=
  YakeTarget.mk ⟨"c", YakeTargetType.callable, none⟩ none (some [("C", "1")]) none

/-- Intermediate Group of the three-level nesting example; it carries an
env map of its own. -/
def deepS : YakeTarget :=
  YakeTarget.mk ⟨"s", YakeTargetType.group, none⟩
    (some (TargetMap.cons "c" deepC TargetMap.nil)) (some [("S", "1")]) none

/-- Top-level Group of the three-level nesting example. -/
def deepG : YakeTarget :=
  YakeTarget.mk ⟨"g", YakeTargetType.group, none⟩
    (some (TargetMap.cons "s" deepS TargetMap.nil)) none none

/-- Document with a Callable reachable only through two Group levels:
its flattened map holds `g` and `g.s.c`, but not the prefix `g.s`. -/
def yDeep : Yake :=
  { ymeta := exMeta, env := none, targets := [("g", deepG)] }

/-- Callable grandchild of the Callable-under-Callable example. -/
def ccC : YakeTarget :=
  YakeTarget.mk ⟨"c", YakeTargetType.callable, none⟩ none none (some ["echo c"])

/-- Callable middle node that itself carries a child map. -/
def ccB : YakeTarget :=
  YakeTarget.mk ⟨"b", YakeTargetType.callable, none⟩
    (some (TargetMap.cons "c" ccC TargetMap.nil)) none none

/-- Top-level Callable of the Callable-under-Callable example. -/
def ccA : YakeTarget :=
  YakeTarget.mk ⟨"a", YakeTargetType.callable, none⟩
    (some (TargetMap.cons "b" ccB TargetMap.nil)) none none

/-- Document whose Callable node at path `a.b.c` sits below the
non-top-level Callable `a.b`. -/
def yCC : Yake :=
  { ymeta := exMeta, env := none, targets := [("a", ccA)] }

/-- Top-level Group carrying its own `exec` list. -/
def gexG : YakeTarget :=
  YakeTarget.mk ⟨"g", YakeTargetType.group, none⟩ none none (some ["boom"])

/-- Callable that declares the Group `g` as a dependency. -/
def gexC : YakeTarget :=
  YakeTarget.mk ⟨"c", YakeTargetType.callable, some ["g"]⟩ none none none

/-- Document where a Callable depends on an exec-carrying top-level
Group. -/
def yGexec : Yake :=
  { ymeta := exMeta, env := none, targets := [("g", gexG), ("c", gexC)] }

/-- Callable with a dependency name that resolves nowhere. -/
def badDepT : YakeTarget :=
  YakeTarget.mk ⟨"t", YakeTargetType.callable, some ["missing"]⟩ none none none

/-- Document with an unresolvable dependency. -/
def yBadDep : Yake :=
  { ymeta := exMeta, env := none, targets := [("t", badDepT)] }

/-- Dependency with two commands and an env map of its own. -/
def execD1 : YakeTarget :=
  YakeTarget.mk ⟨"d1", YakeTargetType.callable, none⟩ none (some [("DEP", "X")]) (some ["a", "b"])

/-- Dependency with no commands. -/
def execD2 : YakeTarget :=
  YakeTarget.mk ⟨"d2", YakeTargetType.callable, none⟩ none none none

/-- Dependency with one command. -/
def execD3 : YakeTarget :=
  YakeTarget.mk ⟨"d3", YakeTargetType.callable, none⟩ none none (some ["c"])

/-- Target with three dependencies and a command of its own. -/
def execT : YakeTarget :=
  YakeTarget.mk ⟨"t", YakeTargetType.callable, some ["d1", "d2", "d3"]⟩ none none (some ["tc"])

/-- Document for the execution-order example. -/
def yExec : Yake :=
  { ymeta := exMeta, env := some [("K", "V")],
    targets := [("t", execT), ("d1", execD1), ("d2", execD2), ("d3", execD3)] }

/-- Root document for the composer example. -/
def yRoot : Yake :=
  { ymeta := exMeta, env := none,
    targets :=
      [("x", YakeTarget.mk ⟨"root x", YakeTargetType.callable, none⟩ none none none),
       ("keep", YakeTarget.mk ⟨"kept", YakeTargetType.callable, none⟩ none none none)] }

/-- Subordinate document for the composer example. -/
def ySub : Yake :=
  { ymeta := exMeta, env := none,
    targets :=
      [("x", YakeTarget.mk ⟨"sub x", YakeTargetType.callable, none⟩ none none none),
       ("newt", YakeTarget.mk ⟨"added", YakeTargetType.callable, none⟩ none none none)] }

/-- Document with a root env containing the reserved key `PATH`. -/
def yBadEnv : Yake :=
  { ymeta := exMeta, env := some [("PATH", "x"), ("OK", "1")],
    targets := [("base", baseTar)] }

/-- The command lines contributed by a list of targets, in order. -/
def cmdsOfTargets (deps : List YakeTarget) : List String :=
  deps.foldr (fun d acc => d.exec.getD [] ++ acc) []

/-- The fold of `get_all_targets` over an arbitrary top-level list,
named so that it can be reasoned about by list induction;
`Yake.get_all_targets y` is definitionally `topFold y.targets`. -/
def topFold (l : List (String × YakeTarget)) : List (String × YakeTarget) :=
  l.foldr
    (fun p acc =>
      (p.1, p.2) ::
        ((if p.2.targets.isSome then p.2.get_sub_targets (some p.1) else []) ++ acc))
    []

/-! Basic lemmas about the list-map primitives. -/

theorem oor_none_right {α : Type} (a : Option α) : oor a none = a := by
  cases a <;> rfl

theorem lookupT_nil (n : String) : lookupT [] n = none := rfl

theorem lookupT_cons (k n : String) (v : YakeTarget) (rest : List (String × YakeTarget)) :
    lookupT ((k, v) :: rest) n = if k = n then some v else lookupT rest n := by
  by_cases h : k = n
  · subst h; simp [lookupT, List.find?_cons]
  · simp [lookupT, List.find?_cons, h]

theorem lookupT_eq_none_of_not_mem_keys (l : List (String × YakeTarget)) (n : String)
    (h : n ∉ l.map Prod.fst) : lookupT l n = none := by
  induction l with
  | nil => rfl
  | cons p rest ih =>
    simp only [List.map_cons, List.mem_cons, not_or] at h
    rw [show p = (p.1, p.2) from rfl, lookupT_cons]
    rw [if_neg (fun hk => h.1 hk.symm)]
    exact ih h.2

theorem lookupT_insertT (m : List (String × YakeTarget)) (k n : String) (v : YakeTarget) :
    lookupT (insertT m k v) n = if n = k then some v else lookupT m n := by
  induction m with
  | nil =>
    rw [show insertT [] k v = [(k, v)] from rfl, lookupT_cons]
    by_cases h : n = k
    · rw [if_pos h.symm, if_pos h]
    · rw [if_neg (fun hk => h hk.symm), if_neg h]
  | cons p rest ih =>
    obtain ⟨p1, p2⟩ := p
    by_cases hpk : p1 = k
    · rw [show insertT ((p1, p2) :: rest) k v = (k, v) :: rest by simp [insertT, hpk],
        lookupT_cons]
      by_cases h : n = k
      · rw [if_pos h.symm, if_pos h]
      · rw [if_neg (fun hk => h hk.symm), if_neg h, lookupT_cons, hpk,
          if_neg (fun hk => h hk.symm)]
    · rw [show insertT ((p1, p2) :: rest) k v = (p1, p2) :: insertT rest k v by
          simp [insertT, hpk],
        lookupT_cons, lookupT_cons, ih]
      by_cases hpn : p1 = n
      · rw [if_pos hpn, if_pos hpn, if_neg (fun h : n = k => hpk (hpn.trans h))]
      · rw [if_neg hpn, if_neg hpn]

theorem lookupT_foldl_insertT (l : List (String × YakeTarget)) (m : List (String × YakeTarget))
    (n : String) (hnd : (l.map Prod.fst).Nodup) :
    lookupT (l.foldl (fun acc p => insertT acc p.1 p.2) m) n =
      oor (lookupT l n) (lookupT m n) := by
  induction l generalizing m with
  | nil => simp [lookupT_nil, oor]
  | cons p rest ih =>
    obtain ⟨p1, p2⟩ := p
    simp only [List.map_cons, List.nodup_cons] at hnd
    rw [List.foldl_cons, ih _ hnd.2, lookupT_insertT, lookupT_cons]
    by_cases h : n = p1
    · rw [if_pos h, if_pos h.symm, lookupT_eq_none_of_not_mem_keys rest n (h ▸ hnd.1)]
      rfl
    · rw [if_neg h, if_neg (fun hk => h hk.symm)]

/-- Claim C9: after `add_sub_yake` merges a subordinate document into a
root document, a qualified name present in the subordinate's flattened
map resolves in the root's target map to the subordinate's target data
(whether or not the root also had it), and a root entry whose name is
absent from the subordinate's flattened map is unchanged. -/
theorem C9_add_sub_yake_merge (y sub : Yake) (n : String)
    (hnd : (sub.get_all_targets.map Prod.fst).Nodup) :
    lookupT (y.add_sub_yake sub).targets n =
      oor (lookupT sub.get_all_targets n) (lookupT y.targets n) :=
  lookupT_foldl_insertT sub.get_all_targets y.targets n hnd

/-- Witness for C9 at the concrete composer example: the overlapping
key `x` ends up with the subordinate's data, and lookups follow the
subordinate-first rule. -/
theorem C9_add_sub_yake_merge_witness :
    (ySub.get_all_targets.map Prod.fst).Nodup ∧
    lookupT (yRoot.add_sub_yake ySub).targets "x" =
      oor (lookupT ySub.get_all_targets "x") (lookupT yRoot.targets "x") :=
  ⟨by decide, C9_add_sub_yake_merge yRoot ySub "x" (by decide)⟩

/-- Claim C10: `has_target_name` succeeds exactly when the name is a
key of the full flattened map; the top-level Group `group` of the
fixture document is accepted although it is missing from the
Callable-only name list that forms the error payload of
`has_target_name` (shown on the miss `sub`). -/
theorem C10_has_target_name_full_map :
    exOk (yBase.has_target_name "group") = true ∧
    yBase.get_target_names.contains "group" = false ∧
    yBase.has_target_name "sub" = Except.error yBase.get_target_names ∧
    (∀ (y : Yake) (n : String),
      exOk (y.has_target_name n) = (lookupT y.get_all_targets n).isSome) := by
  refine ⟨rfl, by decide, rfl, ?_⟩
  intro y n
  cases hb : (lookupT y.get_all_targets n).isSome <;>
    simp [Yake.has_target_name, Yake.get_target_by_name, hb, exOk]

/-! Lemmas about environment accumulation. -/

theorem oor_none_left {α : Type} (b : Option α) : oor none b = b := rfl

theorem envLookup_extend (a b : Env) (k : String) :
    envLookup (Env.extend a b) k = oor (envLookup b k) (envLookup a k) := by
  unfold envLookup Env.extend
  rw [List.find?_append]
  cases b.find? (fun p => p.1 == k) <;> simp [oor, Option.or]

theorem accumEnv_ok_exists (y : Yake) (ps : List String) (acc : Env)
    (hp : ∀ p ∈ ps, (y.get_target_by_name p).isSome = true) :
    ∃ en, y.accumEnv ps acc = Except.ok en := by
  induction ps generalizing acc with
  | nil => exact ⟨acc, rfl⟩
  | cons p rest ih =>
    have hp0 := hp p (List.mem_cons_self p rest)
    cases ht : y.get_target_by_name p with
    | none => rw [ht] at hp0; simp at hp0
    | some t =>
      have hrec := ih (Env.extend acc (t.env.getD []))
        (fun q hq => hp q (List.mem_cons_of_mem _ hq))
      simpa [Yake.accumEnv, ht] using hrec

theorem accumEnv_lookup (y : Yake) (ps : List String) (acc en : Env)
    (h : y.accumEnv ps acc = Except.ok en) (k : String) :
    envLookup en k =
      ps.foldl (fun a p => oor (envLookup (envOfName y p) k) a) (envLookup acc k) := by
  induction ps generalizing acc with
  | nil =>
    simp only [Yake.accumEnv, Except.ok.injEq] at h
    rw [h, List.foldl_nil]
  | cons p rest ih =>
    cases ht : y.get_target_by_name p with
    | none => simp [Yake.accumEnv, ht] at h
    | some t =>
      simp only [Yake.accumEnv, ht] at h
      rw [List.foldl_cons, ih _ h]
      congr 1
      rw [envLookup_extend]
      congr 1
      simp [envOfName, ht]

theorem accumEnv_mem (y : Yake) (ps : List String) (acc en : Env)
    (h : y.accumEnv ps acc = Except.ok en) :
    ∀ q ∈ en, q ∈ acc ∨ ∃ p ∈ ps, q ∈ envOfName y p := by
  induction ps generalizing acc with
  | nil =>
    simp only [Yake.accumEnv, Except.ok.injEq] at h
    exact fun q hq => Or.inl (h ▸ hq)
  | cons p rest ih =>
    cases ht : y.get_target_by_name p with
    | none => simp [Yake.accumEnv, ht] at h
    | some t =>
      simp only [Yake.accumEnv, ht] at h
      intro q hq
      rcases ih _ h q hq with hacc | ⟨pp, hpp, hq2⟩
      · rcases List.mem_append.mp hacc with h1 | h2
        · exact Or.inr ⟨p, List.mem_cons_self p rest, by simpa [envOfName, ht] using h1⟩
        · exact Or.inl h2
      · exact Or.inr ⟨pp, List.mem_cons_of_mem _ hpp, hq2⟩

/-- Claim C5 (amended): during environment resolution, the
prefix-lookup failure branch is not taken for a name that resolves and
whose every dotted prefix also resolves through `get_target_by_name`;
the lookup runs against the flattened map (which omits non-top-level
Groups), not the full node tree, so for deeper Group nestings the
branch is reachable. -/
theorem C5_prefix_chain_resolves (y : Yake) (n : String)
    (hp : ∀ p ∈ parentPaths n, (y.get_target_by_name p).isSome = true)
    (hn : (y.get_target_by_name n).isSome = true) :
    exOk (y.accumulatedEnv n) = true := by
  obtain ⟨en, he⟩ := accumEnv_ok_exists y (parentPaths n) (y.env.getD []) hp
  cases ht : y.get_target_by_name n with
  | none => rw [ht] at hn; simp at hn
  | some t => simp [Yake.accumulatedEnv, he, ht, exOk]

/-- Witness for C5 at the fixture document and the two-segment name
`group.sub`, whose prefixes `group` and `group.sub` both resolve. -/
theorem C5_prefix_chain_resolves_witness :
    (∀ p ∈ parentPaths "group.sub", (yBase.get_target_by_name p).isSome = true) ∧
    (yBase.get_target_by_name "group.sub").isSome = true ∧
    exOk (yBase.accumulatedEnv "group.sub") = true := by
  refine ⟨?_, rfl, C5_prefix_chain_resolves yBase "group.sub" ?_ rfl⟩ <;>
  · intro p hp
    rw [show parentPaths "group.sub" = ["group", "group.sub"] from rfl] at hp
    rcases List.mem_cons.mp hp with h | hp2
    · subst h; rfl
    · rcases List.mem_cons.mp hp2 with h | h3
      · subst h; rfl
      · simp at h3

/-- Counterexample to claim C5 as stated: in `yDeep` the name `g.s.c`
passes the existence check, yet its ancestor prefix `g.s` (an
intermediate Group) does not resolve, and the accumulation takes the
prefix-lookup failure branch. -/
theorem C5_claim_counterexample :
    exOk (yDeep.has_target_name "g.s.c") = true ∧
    ("g.s" ∈ parentPaths "g.s.c") ∧
    yDeep.get_target_by_name "g.s" = none ∧
    yDeep.accumulatedEnv "g.s.c" = Except.error (EnvError.unknownParent "g.s") := by
  refine ⟨rfl, ?_, rfl, rfl⟩
  have : parentPaths "g.s.c" = ["g", "g.s", "g.s.c"] := rfl
  rw [this]
  exact List.mem_cons_of_mem _ (List.mem_cons_self _ _)

/-- Claim C1 (amended): for a name that resolves, all of whose dotted
prefixes resolve, and whose merge layers contain no reserved key,
`get_target_env_vars` succeeds and its result looks up every key to the
value of the deepest layer binding it: document root env, overridden by
each prefix's env from shallowest to deepest, overridden last by the
target's own env; keys bound in a single layer keep that binding. -/
theorem C1_env_merge_layers (y : Yake) (n : String)
    (hn : (y.get_target_by_name n).isSome = true)
    (hp : ∀ p ∈ parentPaths n, (y.get_target_by_name p).isSome = true)
    (hr : ∀ e ∈ layerEnvs y n, ∀ q ∈ e, reservedKey q.1 = false) :
    ∃ env, y.get_target_env_vars n = Except.ok env ∧
      ∀ k, envLookup env k = layersLookup (layerEnvs y n) k := by
  obtain ⟨en, he⟩ := accumEnv_ok_exists y (parentPaths n) (y.env.getD []) hp
  cases ht : y.get_target_by_name n with
  | none => rw [ht] at hn; simp at hn
  | some t =>
  have hacc : y.accumulatedEnv n = Except.ok (Env.extend en (t.env.getD [])) := by
    simp [Yake.accumulatedEnv, he, ht]
  have hqr : ∀ q ∈ Env.extend en (t.env.getD []), reservedKey q.1 = false := by
    intro q hq
    rcases List.mem_append.mp hq with h1 | h2
    · refine hr (envOfName y n) ?_ q ?_
      · exact List.mem_cons_of_mem _ (List.mem_append_right _ (List.mem_singleton.mpr rfl))
      · simpa [envOfName, ht] using h1
    · rcases accumEnv_mem y (parentPaths n) (y.env.getD []) en he q h2 with hroot | ⟨p, hpmem, hq2⟩
      · exact hr (y.env.getD []) (List.mem_cons_self _ _) q hroot
      · exact hr (envOfName y p)
          (List.mem_cons_of_mem _ (List.mem_append_left _ (List.mem_map_of_mem _ hpmem))) q hq2
  refine ⟨Env.extend en (t.env.getD []), ?_, ?_⟩
  · have hfil : (Env.extend en (t.env.getD [])).filter (fun q => reservedKey q.1) = [] := by
      rw [List.filter_eq_nil_iff]
      intro q hq
      rw [hqr q hq]
      exact Bool.false_ne_true
    simp only [Yake.get_target_env_vars, Yake.has_target_name, hn, if_true, hacc,
      List.partition_eq_filter_filter, hfil]
    simp only [List.length_nil, gt_iff_lt, Nat.lt_irrefl, if_false]
    congr 1
    rw [List.filter_eq_self]
    intro q hq
    simp only [Function.comp_apply, hqr q hq, Bool.not_false]
  · intro k
    rw [envLookup_extend, accumEnv_lookup y _ _ _ he k]
    unfold layersLookup layerEnvs
    rw [List.foldl_cons, List.foldl_append, List.foldl_map, List.foldl_cons, List.foldl_nil]
    have hbase : oor (envLookup (y.env.getD []) k) none = envLookup (y.env.getD []) k :=
      oor_none_right _
    rw [hbase]
    congr 1
    simp [envOfName, ht]

/-- Witness for C1 at the fixture document and the name `group.sub`. -/
theorem C1_env_merge_layers_witness :
    (yBase.get_target_by_name "group.sub").isSome = true ∧
    (∀ p ∈ parentPaths "group.sub", (yBase.get_target_by_name p).isSome = true) ∧
    (∀ e ∈ layerEnvs yBase "group.sub", ∀ q ∈ e, reservedKey q.1 = false) ∧
    (∃ env, yBase.get_target_env_vars "group.sub" = Except.ok env ∧
      ∀ k, envLookup env k = layersLookup (layerEnvs yBase "group.sub") k) :=
  ⟨rfl, by decide, by decide,
    C1_env_merge_layers yBase "group.sub" rfl (by decide) (by decide)⟩

/-- Counterexample to claim C1 as stated: `g.s.c` is present in the
flattened map of `yDeep`, yet `get_target_env_vars` does not return the
merged environment — it aborts because the ancestor prefix `g.s` does
not resolve. -/
theorem C1_claim_counterexample :
    (yDeep.get_target_by_name "g.s.c").isSome = true ∧
    yDeep.get_target_env_vars "g.s.c" = Except.error (EnvError.unknownParent "g.s") :=
  ⟨rfl, rfl⟩

/-- Claim C3: once the accumulated post-merge environment exists, the
presence of any reserved key (`TERM`, `TZ`, `LANG`, `PATH`, `HOME`)
makes `get_target_env_vars` fail fatally reporting exactly the
offending key names, regardless of the layer that introduced the key;
otherwise it returns exactly the accumulated environment, which then
contains no reserved key. -/
theorem C3_reserved_env_rejection (y : Yake) (n : String) (envs : Env)
    (hok : exOk (y.has_target_name n) = true)
    (ha : y.accumulatedEnv n = Except.ok envs) :
    ((envs.any fun q => reservedKey q.1) = true →
      y.get_target_env_vars n =
        Except.error (EnvError.forbiddenVars
          ((envs.filter fun q => reservedKey q.1).map (fun q => q.1)))) ∧
    ((envs.any fun q => reservedKey q.1) = false →
      y.get_target_env_vars n = Except.ok envs ∧ ∀ q ∈ envs, reservedKey q.1 = false) := by
  have hsome : (y.get_target_by_name n).isSome = true := by
    cases hb : (y.get_target_by_name n).isSome with
    | true => rfl
    | false => simp [Yake.has_target_name, hb, exOk] at hok
  have hhh : y.has_target_name n = Except.ok () := by
    simp [Yake.has_target_name, hsome]
  constructor
  · intro hany
    have hne : (envs.filter fun q => reservedKey q.1) ≠ [] := by
      rw [List.any_eq_true] at hany
      obtain ⟨x, hx, hpx⟩ := hany
      intro hnil
      exact (List.filter_eq_nil_iff.mp hnil x hx) hpx
    have hlen : 0 < (envs.filter fun q => reservedKey q.1).length :=
      List.length_pos.mpr hne
    simp only [Yake.get_target_env_vars, hhh, ha, List.partition_eq_filter_filter]
    rw [if_pos hlen]
  · intro hany
    have hall : ∀ q ∈ envs, reservedKey q.1 = false := by
      intro q hq
      rw [List.any_eq_false] at hany
      exact Bool.eq_false_iff.mpr (hany q hq)
    have hfil : (envs.filter fun q => reservedKey q.1) = [] := by
      rw [List.filter_eq_nil_iff]
      intro q hq
      rw [hall q hq]
      exact Bool.false_ne_true
    refine ⟨?_, hall⟩
    simp only [Yake.get_target_env_vars, hhh, ha, List.partition_eq_filter_filter, hfil]
    simp only [List.length_nil, gt_iff_lt, Nat.lt_irrefl, if_false]
    congr 1
    rw [List.filter_eq_self]
    intro q hq
    simp only [Function.comp_apply, hall q hq, Bool.not_false]

/-- Witness for C3 at `yBadEnv`, whose root env smuggles `PATH` into
the accumulated environment of `base`. -/
theorem C3_reserved_env_rejection_witness :
    exOk (yBadEnv.has_target_name "base") = true ∧
    yBadEnv.accumulatedEnv "base" = Except.ok [("PATH", "x"), ("OK", "1")] ∧
    ((([("PATH", "x"), ("OK", "1")] : Env).any fun q => reservedKey q.1) = true →
      yBadEnv.get_target_env_vars "base" =
        Except.error (EnvError.forbiddenVars
          ((([("PATH", "x"), ("OK", "1")] : Env).filter fun q => reservedKey q.1).map
            (fun q => q.1)))) ∧
    ((([("PATH", "x"), ("OK", "1")] : Env).any fun q => reservedKey q.1) = false →
      yBadEnv.get_target_env_vars "base" = Except.ok [("PATH", "x"), ("OK", "1")] ∧
      ∀ q ∈ ([("PATH", "x"), ("OK", "1")] : Env), reservedKey q.1 = false) :=
  ⟨rfl, rfl, (C3_reserved_env_rejection yBadEnv "base" [("PATH", "x"), ("OK", "1")] rfl rfl).1,
    (C3_reserved_env_rejection yBadEnv "base" [("PATH", "x"), ("OK", "1")] rfl rfl).2⟩

/-! Lemmas about dependency resolution. -/

theorem resolveDeps_ok_get (y : Yake) (owner : String) (ds : List String) (l : List YakeTarget)
    (h : y.resolveDeps owner ds = Except.ok l) :
    ∀ i : Nat, (ds[i]?.bind (y.get_target_by_name)) = l[i]? := by
  induction ds generalizing l with
  | nil =>
    simp only [Yake.resolveDeps, Except.ok.injEq] at h
    subst h
    intro i
    simp
  | cons d rest ih =>
    cases ht : y.get_target_by_name d with
    | none => simp [Yake.resolveDeps, ht] at h
    | some t =>
      simp only [Yake.resolveDeps, ht] at h
      cases hr : y.resolveDeps owner rest with
      | error e => rw [hr] at h; simp at h
      | ok l2 =>
        rw [hr] at h
        simp only [Except.ok.injEq] at h
        subst h
        intro i
        cases i with
        | zero => simp [ht]
        | succ j => simpa using ih l2 hr j

theorem resolveDeps_error_of_missing (y : Yake) (owner : String) (ds : List String)
    (d : String) (hd : d ∈ ds) (hnone : y.get_target_by_name d = none) :
    ∃ e, y.resolveDeps owner ds = Except.error e := by
  induction ds with
  | nil => cases hd
  | cons d0 rest ih =>
    cases ht : y.get_target_by_name d0 with
    | none =>
      exact ⟨DepError.unknownDependency d0 owner, by simp [Yake.resolveDeps, ht]⟩
    | some t =>
      rcases List.mem_cons.mp hd with h0 | hrest
      · subst h0; rw [ht] at hnone; cases hnone
      · obtain ⟨e, he⟩ := ih hrest
        exact ⟨e, by simp [Yake.resolveDeps, ht, he]⟩

theorem resolveDeps_error_shape (y : Yake) (owner : String) (ds : List String) (e : DepError)
    (h : y.resolveDeps owner ds = Except.error e) :
    ∃ d, e = DepError.unknownDependency d owner ∧ d ∈ ds ∧
      y.get_target_by_name d = none := by
  induction ds with
  | nil => simp [Yake.resolveDeps] at h
  | cons d0 rest ih =>
    cases ht : y.get_target_by_name d0 with
    | none =>
      simp only [Yake.resolveDeps, ht, Except.error.injEq] at h
      exact ⟨d0, h.symm, List.mem_cons_self _ _, ht⟩
    | some t =>
      simp only [Yake.resolveDeps, ht] at h
      cases hr : y.resolveDeps owner rest with
      | error e2 =>
        rw [hr] at h
        simp only [Except.error.injEq] at h
        subst h
        obtain ⟨d, hde, hdm, hdn⟩ := ih hr
        exact ⟨d, hde, List.mem_cons_of_mem _ hdm, hdn⟩
      | ok l => rw [hr] at h; simp at h

theorem depsEntries_error_shape (y : Yake) (l : List (String × YakeTarget)) (e : DepError)
    (h : y.depsEntries l = Except.error e) :
    ∃ d owner tt, e = DepError.unknownDependency d owner ∧ (owner, tt) ∈ l ∧
      tt.tmeta.target_type = YakeTargetType.callable ∧ d ∈ tt.tmeta.depends.getD [] ∧
      y.get_target_by_name d = none := by
  induction l with
  | nil => simp [Yake.depsEntries] at h
  | cons p rest ih =>
    obtain ⟨k, u⟩ := p
    by_cases hc : u.tmeta.target_type = YakeTargetType.callable
    · simp only [Yake.depsEntries, hc, if_true] at h
      cases hr : y.resolveDeps k (u.tmeta.depends.getD []) with
      | error e2 =>
        rw [hr] at h
        simp only [Except.error.injEq] at h
        obtain ⟨d, hde, hdm, hdn⟩ := resolveDeps_error_shape y k _ e2 hr
        exact ⟨d, k, u, h ▸ hde, List.mem_cons_self _ _, hc, hdm, hdn⟩
      | ok r =>
        rw [hr] at h
        cases h2 : y.depsEntries rest with
        | error e2 =>
          rw [h2] at h
          simp only [Except.error.injEq] at h
          obtain ⟨d, ow, tt, h1, hm, h3, h4, h5⟩ := ih (h ▸ h2)
          exact ⟨d, ow, tt, h1, List.mem_cons_of_mem _ hm, h3, h4, h5⟩
        | ok ds2 => rw [h2] at h; simp at h
    · simp only [Yake.depsEntries, hc, if_false] at h
      obtain ⟨d, ow, tt, h1, hm, h3, h4, h5⟩ := ih h
      exact ⟨d, ow, tt, h1, List.mem_cons_of_mem _ hm, h3, h4, h5⟩

theorem depsEntries_not_ok (y : Yake) (l : List (String × YakeTarget)) (nm : String)
    (t : YakeTarget) (d : String)
    (hmem : (nm, t) ∈ l)
    (hc : t.tmeta.target_type = YakeTargetType.callable)
    (hd : d ∈ t.tmeta.depends.getD [])
    (hnone : y.get_target_by_name d = none) :
    ∀ ds, y.depsEntries l ≠ Except.ok ds := by
  induction l with
  | nil => cases hmem
  | cons p rest ih =>
    obtain ⟨k, u⟩ := p
    intro ds hds
    rcases List.mem_cons.mp hmem with h0 | hrest
    · obtain ⟨hk, hu⟩ := Prod.mk.injEq .. ▸ h0
      subst hk
      subst hu
      simp only [Yake.depsEntries, hc, if_true] at hds
      obtain ⟨e, he⟩ := resolveDeps_error_of_missing y nm (t.tmeta.depends.getD []) d hd hnone
      rw [he] at hds
      cases hds
    · by_cases hcu : u.tmeta.target_type = YakeTargetType.callable
      · simp only [Yake.depsEntries, hcu, if_true] at hds
        cases hr : y.resolveDeps k (u.tmeta.depends.getD []) with
        | error e2 => rw [hr] at hds; cases hds
        | ok r =>
          rw [hr] at hds
          cases h2 : y.depsEntries rest with
          | error e2 => rw [h2] at hds; cases hds
          | ok ds2 => exact ih hrest ds2 h2
      · simp only [Yake.depsEntries, hcu, if_false] at hds
        exact ih hrest ds hds

theorem depsEntries_ok_lookup (y : Yake) (l : List (String × YakeTarget))
    (ds : List (String × List YakeTarget)) (nm : String) (t : YakeTarget)
    (h : y.depsEntries l = Except.ok ds)
    (hl : lookupT l nm = some t)
    (hc : t.tmeta.target_type = YakeTargetType.callable) :
    ∃ r, lookupDeps ds nm = some r ∧
      y.resolveDeps nm (t.tmeta.depends.getD []) = Except.ok r := by
  induction l generalizing ds with
  | nil => cases hl
  | cons p rest ih =>
    obtain ⟨k, u⟩ := p
    rw [lookupT_cons] at hl
    by_cases hk : k = nm
    · rw [if_pos hk] at hl
      injection hl with hl
      subst hl
      subst hk
      simp only [Yake.depsEntries, hc, if_true] at h
      cases hr : y.resolveDeps k (u.tmeta.depends.getD []) with
      | error e2 => rw [hr] at h; cases h
      | ok r =>
        rw [hr] at h
        cases h2 : y.depsEntries rest with
        | error e2 => rw [h2] at h; cases h
        | ok ds2 =>
          rw [h2] at h
          simp only [Except.ok.injEq] at h
          subst h
          refine ⟨r, ?_, rfl⟩
          simp [lookupDeps, List.find?_cons_of_pos]
    · rw [if_neg hk] at hl
      by_cases hcu : u.tmeta.target_type = YakeTargetType.callable
      · simp only [Yake.depsEntries, hcu, if_true] at h
        cases hr : y.resolveDeps k (u.tmeta.depends.getD []) with
        | error e2 => rw [hr] at h; cases h
        | ok r =>
          rw [hr] at h
          cases h2 : y.depsEntries rest with
          | error e2 => rw [h2] at h; cases h
          | ok ds2 =>
            rw [h2] at h
            simp only [Except.ok.injEq] at h
            subst h
            obtain ⟨r2, hr2, hres⟩ := ih ds2 h2 hl
            refine ⟨r2, ?_, hres⟩
            rw [show lookupDeps ((k, r) :: ds2) nm = lookupDeps ds2 nm by
              simp [lookupDeps, List.find?_cons_of_neg, hk]]
            exact hr2
      · simp only [Yake.depsEntries, hcu, if_false] at h
        exact ih ds h hl

/-- Claim C6: if any Callable entry of the flattened map declares a
dependency name that does not resolve, `get_all_dependencies` fails
with an error naming a missing dependency together with its owning
Callable target — it does not skip the entry and produce a map. -/
theorem C6_unresolvable_dependency_fatal (y : Yake) (nm : String) (t : YakeTarget) (d : String)
    (hmem : (nm, t) ∈ y.get_all_targets)
    (hc : t.tmeta.target_type = YakeTargetType.callable)
    (hd : d ∈ t.tmeta.depends.getD [])
    (hnone : y.get_target_by_name d = none) :
    ∃ d2 owner tt,
      y.get_all_dependencies = Except.error (DepError.unknownDependency d2 owner) ∧
      (owner, tt) ∈ y.get_all_targets ∧
      tt.tmeta.target_type = YakeTargetType.callable ∧
      d2 ∈ tt.tmeta.depends.getD [] ∧
      y.get_target_by_name d2 = none := by
  cases h : y.get_all_dependencies with
  | ok ds => exact absurd h (depsEntries_not_ok y y.get_all_targets nm t d hmem hc hd hnone ds)
  | error e =>
    obtain ⟨d2, ow, tt, he, hm, hc2, hd2, hn2⟩ := depsEntries_error_shape y _ e h
    exact ⟨d2, ow, tt, by rw [he], hm, hc2, hd2, hn2⟩

/-- Witness for C6 at `yBadDep`, whose only target declares the
unresolvable dependency `missing`. -/
theorem C6_unresolvable_dependency_fatal_witness :
    (("t", badDepT) ∈ yBadDep.get_all_targets) ∧
    badDepT.tmeta.target_type = YakeTargetType.callable ∧
    ("missing" ∈ badDepT.tmeta.depends.getD []) ∧
    yBadDep.get_target_by_name "missing" = none ∧
    (∃ d2 owner tt,
      yBadDep.get_all_dependencies = Except.error (DepError.unknownDependency d2 owner) ∧
      (owner, tt) ∈ yBadDep.get_all_targets ∧
      tt.tmeta.target_type = YakeTargetType.callable ∧
      d2 ∈ tt.tmeta.depends.getD [] ∧
      yBadDep.get_target_by_name d2 = none) :=
  ⟨List.mem_singleton.mpr rfl, rfl, List.mem_singleton.mpr rfl, rfl,
    C6_unresolvable_dependency_fatal yBadDep "t" badDepT "missing"
      (List.mem_singleton.mpr rfl) rfl (List.mem_singleton.mpr rfl) rfl⟩

/-- Claim C7: when `get_all_dependencies` succeeds, every Callable
entry of the flattened map has a dependency-map entry whose list
resolves the declared `depends` names position by position, in
declaration order and with no transitive expansion (an absent `depends`
yields the empty list). -/
theorem C7_direct_dependency_map (y : Yake) (nm : String) (t : YakeTarget)
    (ds : List (String × List YakeTarget))
    (hok : y.get_all_dependencies = Except.ok ds)
    (ht : y.get_target_by_name nm = some t)
    (hc : t.tmeta.target_type = YakeTargetType.callable) :
    ∃ r, lookupDeps ds nm = some r ∧
      ∀ i : Nat, ((t.tmeta.depends.getD [])[i]?.bind (y.get_target_by_name)) = r[i]? := by
  obtain ⟨r, h1, h2⟩ := depsEntries_ok_lookup y y.get_all_targets ds nm t hok ht hc
  exact ⟨r, h1, resolveDeps_ok_get y nm _ r h2⟩

/-- Witness for C7 at the fixture document: the entry for `test`
resolves its single declared dependency `base` to the `base` target. -/
theorem C7_direct_dependency_map_witness :
    yBase.get_all_dependencies = Except.ok
      [("base", []), ("test", [baseTar]), ("group.sub", [baseTar])] ∧
    yBase.get_target_by_name "test" = some testTar ∧
    testTar.tmeta.target_type = YakeTargetType.callable ∧
    (∃ r, lookupDeps [("base", []), ("test", [baseTar]), ("group.sub", [baseTar])] "test" =
        some r ∧
      ∀ i : Nat, ((testTar.tmeta.depends.getD [])[i]?.bind (yBase.get_target_by_name)) = r[i]?) :=
  ⟨rfl, rfl, rfl, C7_direct_dependency_map yBase "test" testTar _ rfl rfl rfl⟩

/-! Lemmas about execution. -/

theorem runCmds_ok_of_env (y : Yake) (n : String) (e : Env) (cmds : List String)
    (he : y.get_target_env_vars n = Except.ok e) :
    y.runCmds n cmds = Except.ok (cmds.map (fun c => ShellCall.mk c e)) := by
  induction cmds with
  | nil => rfl
  | cons c rest ih => simp [Yake.runCmds, he, ih]

theorem runTargets_ok_of_env (y : Yake) (n : String) (e : Env) (deps : List YakeTarget)
    (he : y.get_target_env_vars n = Except.ok e) :
    y.runTargets n deps =
      Except.ok ((cmdsOfTargets deps).map (fun c => ShellCall.mk c e)) := by
  induction deps with
  | nil => rfl
  | cons d rest ih =>
    simp [Yake.runTargets, Yake.runTarget, runCmds_ok_of_env y n e _ he, ih,
      cmdsOfTargets, List.map_append]

theorem mem_of_lookupT (l : List (String × YakeTarget)) (k : String) (t : YakeTarget)
    (h : lookupT l k = some t) : (k, t) ∈ l := by
  unfold lookupT at h
  cases hf : l.find? (fun p => p.1 == k) with
  | none => rw [hf] at h; cases h
  | some p =>
    rw [hf] at h
    simp only [Option.map_some', Option.some.injEq] at h
    have hmem := List.mem_of_find?_eq_some hf
    have hpk : p.1 = k := by
      have := List.find?_some hf
      exact beq_iff_eq.mp this
    have : p = (k, t) := by
      rw [← hpk, ← h]
    exact this ▸ hmem

theorem keys_nodup_unique (l : List (String × YakeTarget))
    (hnd : (l.map Prod.fst).Nodup) (k : String) (a b : YakeTarget)
    (ha : (k, a) ∈ l) (hb : (k, b) ∈ l) : a = b := by
  induction l with
  | nil => cases ha
  | cons p rest ih =>
    simp only [List.map_cons, List.nodup_cons] at hnd
    rcases List.mem_cons.mp ha with h1 | h1 <;> rcases List.mem_cons.mp hb with h2 | h2
    · exact congrArg Prod.snd (h1.trans h2.symm)
    · exfalso
      have hp1 : p.1 = k := by rw [← h1]
      have hk : k ∈ rest.map Prod.fst := List.mem_map.mpr ⟨(k, b), h2, rfl⟩
      exact hnd.1 (hp1.symm ▸ hk)
    · exfalso
      have hp1 : p.1 = k := by rw [← h2]
      have hk : k ∈ rest.map Prod.fst := List.mem_map.mpr ⟨(k, a), h1, rfl⟩
      exact hnd.1 (hp1.symm ▸ hk)
    · exact ih hnd.2 h1 h2

theorem lookupDeps_some_imp (y : Yake) (l : List (String × YakeTarget))
    (ds : List (String × List YakeTarget)) (nm : String) (r : List YakeTarget)
    (h : y.depsEntries l = Except.ok ds) (hl : lookupDeps ds nm = some r) :
    ∃ u, (nm, u) ∈ l ∧ u.tmeta.target_type = YakeTargetType.callable := by
  induction l generalizing ds with
  | nil =>
    simp only [Yake.depsEntries, Except.ok.injEq] at h
    rw [← h] at hl
    cases hl
  | cons p rest ih =>
    obtain ⟨k, u⟩ := p
    by_cases hc : u.tmeta.target_type = YakeTargetType.callable
    · simp only [Yake.depsEntries, hc, if_true] at h
      cases hr : y.resolveDeps k (u.tmeta.depends.getD []) with
      | error e2 => rw [hr] at h; cases h
      | ok r2 =>
        rw [hr] at h
        cases h2 : y.depsEntries rest with
        | error e2 => rw [h2] at h; cases h
        | ok ds2 =>
          rw [h2] at h
          simp only [Except.ok.injEq] at h
          subst h
          by_cases hk : k = nm
          · exact ⟨u, by rw [← hk]; exact List.mem_cons_self _ _, hc⟩
          · rw [show lookupDeps ((k, r2) :: ds2) nm = lookupDeps ds2 nm by
              simp [lookupDeps, List.find?_cons_of_neg, hk]] at hl
            obtain ⟨u2, hm, hc2⟩ := ih ds2 h2 hl
            exact ⟨u2, List.mem_cons_of_mem _ hm, hc2⟩
    · simp only [Yake.depsEntries, hc, if_false] at h
      obtain ⟨u2, hm, hc2⟩ := ih ds h hl
      exact ⟨u2, List.mem_cons_of_mem _ hm, hc2⟩

/-- Claim C4: for a resolvable target, `execute` emits — in order — the
commands of each direct dependency (declared order, empty `exec` lists
contributing nothing and stopping nothing) followed by the target's own
commands, every one of them with the environment resolved for the
originally requested name; no dependency gets an independently resolved
environment. -/
theorem C4_execution_order_and_env (y : Yake) (n : String) (target : YakeTarget)
    (deps : List YakeTarget) (e : Env)
    (ht : y.get_target_by_name n = some target)
    (hd : y.get_dependencies_by_name n = Except.ok deps)
    (he : y.get_target_env_vars n = Except.ok e) :
    y.execute n = Except.ok
      ((cmdsOfTargets deps ++ target.exec.getD []).map (fun c => ShellCall.mk c e)) := by
  have hsome : (y.get_target_by_name n).isSome = true := by rw [ht]; rfl
  have hhh : y.has_target_name n = Except.ok () := by simp [Yake.has_target_name, hsome]
  simp [Yake.execute, hhh, ht, hd, runTargets_ok_of_env y n e deps he,
    Yake.runTarget, runCmds_ok_of_env y n e _ he, List.map_append]

/-- Witness for C4 at the execution example: dependencies `d1, d2, d3`
run first in order (`d2` has no commands and stops nothing), then the
target's own command, all under the requesting target's environment. -/
theorem C4_execution_order_and_env_witness :
    yExec.get_target_by_name "t" = some execT ∧
    yExec.get_dependencies_by_name "t" = Except.ok [execD1, execD2, execD3] ∧
    yExec.get_target_env_vars "t" = Except.ok [("K", "V")] ∧
    yExec.execute "t" = Except.ok
      [ShellCall.mk "a" [("K", "V")], ShellCall.mk "b" [("K", "V")],
       ShellCall.mk "c" [("K", "V")], ShellCall.mk "tc" [("K", "V")]] :=
  ⟨rfl, rfl, rfl,
    C4_execution_order_and_env yExec "t" execT [execD1, execD2, execD3] [("K", "V")]
      rfl rfl rfl⟩

/-- Claim C8 (amended): requesting a Group target's name never runs any
command — for duplicate-free flattened keys the dependency-map lookup
has no entry for a Group name, so `execute` aborts before any shell
call; a Group's `exec` lines can however be invoked when the Group is
named in a Callable's `depends` list. -/
theorem C8_group_request_never_runs (y : Yake) (n : String) (t : YakeTarget)
    (hnd : (y.get_all_targets.map Prod.fst).Nodup)
    (ht : y.get_target_by_name n = some t)
    (hg : t.tmeta.target_type = YakeTargetType.group) :
    exOk (y.execute n) = false := by
  have hsome : (y.get_target_by_name n).isSome = true := by rw [ht]; rfl
  have hhh : y.has_target_name n = Except.ok () := by simp [Yake.has_target_name, hsome]
  cases hda : y.get_all_dependencies with
  | error e => simp [Yake.execute, hhh, ht, Yake.get_dependencies_by_name, hda, exOk]
  | ok ds =>
    have hnone : lookupDeps ds n = none := by
      cases hl : lookupDeps ds n with
      | none => rfl
      | some r =>
        obtain ⟨u, hm, hc⟩ := lookupDeps_some_imp y _ ds n r hda hl
        have hmt : (n, t) ∈ y.get_all_targets := mem_of_lookupT _ _ _ ht
        rw [keys_nodup_unique _ hnd n u t hm hmt, hg] at hc
        cases hc
    simp [Yake.execute, hhh, ht, Yake.get_dependencies_by_name, hda, hnone, exOk]

/-- Witness for C8 at `yGexec`: requesting the Group name `g` runs
nothing. -/
theorem C8_group_request_never_runs_witness :
    (yGexec.get_all_targets.map Prod.fst).Nodup ∧
    yGexec.get_target_by_name "g" = some gexG ∧
    gexG.tmeta.target_type = YakeTargetType.group ∧
    exOk (yGexec.execute "g") = false :=
  ⟨by decide, rfl, rfl, C8_group_request_never_runs yGexec "g" gexG (by decide) rfl rfl⟩

/-- Counterexample to claim C8 as stated: in `yGexec` the Callable `c`
depends on the top-level Group `g`, and executing `c` invokes the
Group's `exec` command line `boom`. -/
theorem C8_claim_counterexample :
    yGexec.get_target_by_name "g" = some gexG ∧
    gexG.tmeta.target_type = YakeTargetType.group ∧
    gexG.exec = some ["boom"] ∧
    yGexec.execute "c" = Except.ok [ShellCall.mk "boom" []] :=
  ⟨rfl, rfl, rfl, rfl⟩

/-! Lemmas about the flattener. -/

mutual

theorem get_sub_targets_callable : ∀ (t : YakeTarget) (pfx : Option String),
    ∀ q ∈ t.get_sub_targets pfx, q.2.tmeta.target_type = YakeTargetType.callable
  | YakeTarget.mk m none e x, pfx, q, hq => by
    rw [show (YakeTarget.mk m none e x).get_sub_targets pfx = [] from rfl] at hq
    cases hq
  | YakeTarget.mk m (some children) e x, pfx, q, hq =>
    flattenForest_callable children pfx q hq

theorem flattenForest_callable : ∀ (m : TargetMap) (pfx : Option String),
    ∀ q ∈ flattenForest m pfx, q.2.tmeta.target_type = YakeTargetType.callable
  | TargetMap.nil, pfx, q, hq => by
    rw [show flattenForest TargetMap.nil pfx = [] from rfl] at hq
    cases hq
  | TargetMap.cons nm t rest, pfx, q, hq => by
    rw [show flattenForest (TargetMap.cons nm t rest) pfx =
        (if t.tmeta.target_type = YakeTargetType.callable then
          [(qualifyName pfx nm, t)]
        else t.get_sub_targets (pfx.map (fun s => s ++ "." ++ nm))) ++
          flattenForest rest pfx from rfl] at hq
    rcases List.mem_append.mp hq with h1 | h2
    · by_cases hc : t.tmeta.target_type = YakeTargetType.callable
      · rw [if_pos hc, List.mem_singleton] at h1
        rw [h1]
        exact hc
      · rw [if_neg hc] at h1
        exact get_sub_targets_callable t _ q h1
    · exact flattenForest_callable rest pfx q h2

end

theorem flattenForest_mem_callable : ∀ (m : TargetMap) (pfx : Option String) (n : String)
    (u : YakeTarget), (n, u) ∈ m.toList →
    u.tmeta.target_type = YakeTargetType.callable →
    (qualifyName pfx n, u) ∈ flattenForest m pfx
  | TargetMap.nil, _, _, _, hm, _ => absurd hm (List.not_mem_nil _)
  | TargetMap.cons nm t rest, pfx, n, u, hm, hc => by
    rw [show (TargetMap.cons nm t rest).toList = (nm, t) :: rest.toList from rfl] at hm
    rw [show flattenForest (TargetMap.cons nm t rest) pfx =
        (if t.tmeta.target_type = YakeTargetType.callable then
          [(qualifyName pfx nm, t)]
        else t.get_sub_targets (pfx.map (fun s => s ++ "." ++ nm))) ++
          flattenForest rest pfx from rfl]
    rcases List.mem_cons.mp hm with h1 | h2
    · have hn : n = nm := congrArg Prod.fst h1
      have hu : u = t := congrArg Prod.snd h1
      subst hn
      subst hu
      rw [if_pos hc]
      exact List.mem_append_left _ (List.mem_singleton.mpr rfl)
    · exact List.mem_append_right _ (flattenForest_mem_callable rest pfx n u h2 hc)

theorem flattenForest_mem_group : ∀ (m : TargetMap) (pfx : Option String) (n : String)
    (g : YakeTarget) (q : String × YakeTarget),
    (n, g) ∈ m.toList → g.tmeta.target_type = YakeTargetType.group →
    q ∈ g.get_sub_targets (pfx.map (fun s => s ++ "." ++ n)) →
    q ∈ flattenForest m pfx
  | TargetMap.nil, _, _, _, _, hm, _, _ => absurd hm (List.not_mem_nil _)
  | TargetMap.cons nm t rest, pfx, n, g, q, hm, hg, hq => by
    rw [show (TargetMap.cons nm t rest).toList = (nm, t) :: rest.toList from rfl] at hm
    rw [show flattenForest (TargetMap.cons nm t rest) pfx =
        (if t.tmeta.target_type = YakeTargetType.callable then
          [(qualifyName pfx nm, t)]
        else t.get_sub_targets (pfx.map (fun s => s ++ "." ++ nm))) ++
          flattenForest rest pfx from rfl]
    rcases List.mem_cons.mp hm with h1 | h2
    · have hn : n = nm := congrArg Prod.fst h1
      have hu : g = t := congrArg Prod.snd h1
      subst hn
      subst hu
      have hc : ¬ g.tmeta.target_type = YakeTargetType.callable := by
        rw [hg]
        intro hgc
        cases hgc
      rw [if_neg hc]
      exact List.mem_append_left _ hq
    · exact List.mem_append_right _ (flattenForest_mem_group rest pfx n g q h2 hg hq)

theorem groupChain_targets_isSome (t : YakeTarget) (path : List String) (c : YakeTarget)
    (h : GroupChain t path c) : t.targets.isSome = true := by
  have hne : t.children ≠ [] := by
    cases h with
    | last t2 n c2 hm hc => exact List.ne_nil_of_mem hm
    | step t2 n g rest c2 hm hg hrest => exact List.ne_nil_of_mem hm
  cases ht : t.targets with
  | none =>
    exfalso
    apply hne
    unfold YakeTarget.children
    rw [ht]
    rfl
  | some ch => rfl

theorem get_sub_targets_of_groupChain (t : YakeTarget) (path : List String) (c : YakeTarget)
    (hch : GroupChain t path c) :
    ∀ x : String, (dotJoin x path, c) ∈ t.get_sub_targets (some x) := by
  induction hch with
  | last t2 n c2 hm hc =>
    intro x
    cases t2 with
    | mk m ots e xx =>
      cases ots with
      | none => exact absurd hm (List.not_mem_nil _)
      | some ch =>
        have hm2 : (n, c2) ∈ ch.toList := hm
        have := flattenForest_mem_callable ch (some x) n c2 hm2 hc
        exact this
  | step t2 n g rest c2 hm hg hrest ih =>
    intro x
    cases t2 with
    | mk m ots e xx =>
      cases ots with
      | none => exact absurd hm (List.not_mem_nil _)
      | some ch =>
        have hm2 : (n, g) ∈ ch.toList := hm
        have hsub : (dotJoin (x ++ "." ++ n) rest, c2) ∈
            g.get_sub_targets ((some x).map (fun s => s ++ "." ++ n)) := ih (x ++ "." ++ n)
        exact flattenForest_mem_group ch (some x) n g _ hm2 hg hsub

theorem topFold_mem_top (l : List (String × YakeTarget)) (p : String × YakeTarget)
    (hm : p ∈ l) : p ∈ topFold l := by
  induction l with
  | nil => cases hm
  | cons a rest ih =>
    rcases List.mem_cons.mp hm with h1 | h2
    · rw [h1]
      exact List.mem_cons_self _ _
    · exact List.mem_cons_of_mem _ (List.mem_append_right _ (ih h2))

theorem topFold_mem_sub (l : List (String × YakeTarget)) (n0 : String) (t0 : YakeTarget)
    (hm : (n0, t0) ∈ l) (hs : t0.targets.isSome = true) (q : String × YakeTarget)
    (hq : q ∈ t0.get_sub_targets (some n0)) : q ∈ topFold l := by
  induction l with
  | nil => cases hm
  | cons a rest ih =>
    rcases List.mem_cons.mp hm with h1 | h2
    · rw [show topFold (a :: rest) =
          (a.1, a.2) ::
            ((if a.2.targets.isSome then a.2.get_sub_targets (some a.1) else []) ++
              topFold rest) from rfl]
      have ha1 : a.1 = n0 := by rw [← h1]
      have ha2 : a.2 = t0 := by rw [← h1]
      rw [ha1, ha2, if_pos hs]
      exact List.mem_cons_of_mem _ (List.mem_append_left _ hq)
    · exact List.mem_cons_of_mem _ (List.mem_append_right _ (ih h2))

theorem topFold_group_mem (l : List (String × YakeTarget)) (q : String × YakeTarget)
    (hq : q ∈ topFold l) (hg : q.2.tmeta.target_type = YakeTargetType.group) : q ∈ l := by
  induction l with
  | nil => cases hq
  | cons a rest ih =>
    rw [show topFold (a :: rest) =
        (a.1, a.2) ::
          ((if a.2.targets.isSome then a.2.get_sub_targets (some a.1) else []) ++
            topFold rest) from rfl] at hq
    rcases List.mem_cons.mp hq with h1 | h2
    · rw [h1]
      exact List.mem_cons_self _ _
    · rcases List.mem_append.mp h2 with h3 | h4
      · by_cases hs : a.2.targets.isSome
        · rw [if_pos hs] at h3
          have := get_sub_targets_callable a.2 (some a.1) q h3
          rw [hg] at this
          cases this
        · rw [if_neg hs] at h3
          cases h3
      · exact List.mem_cons_of_mem _ (ih h4)

/-- Claim C2 (amended): the flattened map contains every top-level
entry regardless of type, and every Callable node reachable from a
top-level target through Group intermediate nodes under its dot-joined
ancestor path; a non-top-level Group never appears as an entry.
Callable nodes nested beneath a non-top-level Callable are not
flattened (the recursion does not descend into Callable children). -/
theorem C2_flattening (y : Yake) :
    (∀ p, p ∈ y.targets → p ∈ y.get_all_targets) ∧
    (∀ (n0 : String) (t0 : YakeTarget) (path : List String) (c : YakeTarget),
      (n0, t0) ∈ y.targets → GroupChain t0 path c →
      (dotJoin n0 path, c) ∈ y.get_all_targets) ∧
    (∀ p, p ∈ y.get_all_targets → p.2.tmeta.target_type = YakeTargetType.group →
      p ∈ y.targets) := by
  have heq : y.get_all_targets = topFold y.targets := rfl
  refine ⟨?_, ?_, ?_⟩
  · intro p hp
    rw [heq]
    exact topFold_mem_top y.targets p hp
  · intro n0 t0 path c hm hch
    rw [heq]
    exact topFold_mem_sub y.targets n0 t0 hm
      (groupChain_targets_isSome t0 path c hch) _
      (get_sub_targets_of_groupChain t0 path c hch n0)
  · intro p hp hg
    rw [heq] at hp
    exact topFold_group_mem y.targets p hp hg

/-- Witness for C2 at `yDeep`: the Callable `c` below the Group chain
`g.s` appears in the flattened map under `g.s.c`. -/
theorem C2_flattening_witness :
    (("g", deepG) ∈ yDeep.targets) ∧
    GroupChain deepG ["s", "c"] deepC ∧
    ((dotJoin "g" ["s", "c"], deepC) ∈ yDeep.get_all_targets) :=
  ⟨List.mem_singleton.mpr rfl,
   GroupChain.step deepG "s" deepS ["c"] deepC (List.mem_singleton.mpr rfl) rfl
     (GroupChain.last deepS "c" deepC (List.mem_singleton.mpr rfl) rfl),
   (C2_flattening yDeep).2.1 "g" deepG ["s", "c"] deepC (List.mem_singleton.mpr rfl)
     (GroupChain.step deepG "s" deepS ["c"] deepC (List.mem_singleton.mpr rfl) rfl
       (GroupChain.last deepS "c" deepC (List.mem_singleton.mpr rfl) rfl))⟩

/-- Counterexample to claim C2 as stated: in `yCC` the Callable node at
path `a.b.c` sits below the non-top-level Callable `a.b` and receives
no entry in the flattened map, although `a.b` itself does. -/
theorem C2_claim_counterexample :
    yCC.targets = [("a", ccA)] ∧
    ccA.targets = some (TargetMap.cons "b" ccB TargetMap.nil) ∧
    ccB.targets = some (TargetMap.cons "c" ccC TargetMap.nil) ∧
    ccC.tmeta.target_type = YakeTargetType.callable ∧
    lookupT yCC.get_all_targets "a.b" = some ccB ∧
    lookupT yCC.get_all_targets "a.b.c" = none :=
  ⟨rfl, rfl, rfl, rfl, rfl, rfl⟩
